import Mathlib

/-!
Verification of the rendering kernel of a progressive Monte-Carlo path tracer
(sphere intersection, closest-hit scene query, recursive integrator, material
scattering, thin-lens camera, progressive accumulation buffer).

The development uses two semantic levels for the source's `f32` values:

* `PathTracer.RF` — a float idealized as an exact real number or NaN.
  Arithmetic propagates NaN, `sqrt` of a negative number is NaN, comparisons
  involving NaN are false, and division by zero is NaN.  (IEEE-754 infinities
  are collapsed into NaN; at every division site of the embedded code the
  numerator is zero whenever the divisor is zero in exact arithmetic, so the
  collapse does not change any reachable result.  Rounding is not modelled.)
  This level carries the sphere-intersection, scene-query, integrator and
  accumulation-buffer code, whose claims concern NaN and division-by-zero
  behavior.

* `PathTracer.Ideal` — a float idealized as an exact real number.  This level
  carries the material-scattering and camera code, whose claims are algebraic.

Randomness (thread-local RNG draws in the source) is made explicit: every
random draw becomes an argument of the embedded function.
-/

namespace PathTracer

/-- A 32-bit float idealized as an exact real number (`val x`) or NaN. -/
inductive RF where
  | val : ℝ → RF
  | nan : RF

namespace RF

/-- Float addition: NaN propagates. -/
def add : RF → RF → RF
  | val x, val y => val (x + y)
  | _, _ => nan

/-- Float subtraction: NaN propagates. -/
def sub : RF → RF → RF
  | val x, val y => val (x - y)
  | _, _ => nan

/-- Float multiplication: NaN propagates. -/
def mul : RF → RF → RF
  | val x, val y => val (x * y)
  | _, _ => nan

/-- Float negation: NaN propagates. -/
def neg : RF → RF
  | val x => val (-x)
  | nan => nan

/-- Float division: NaN propagates, and division by zero gives NaN
(the `0/0` case of IEEE-754; the `x/0 = ±∞` case is also collapsed to NaN,
which is reachable in the embedded code only with a zero numerator). -/
noncomputable def div : RF → RF → RF
  | val x, val y => if y = 0 then nan else val (x / y)
  | _, _ => nan

/-- Float square root: NaN on negative inputs, NaN propagates. -/
noncomputable def sqrt : RF → RF
  | val x => if x < 0 then nan else val (Real.sqrt x)
  | nan => nan

/-- Float strict comparison: any comparison involving NaN is false. -/
def lt : RF → RF → Prop
  | val x, val y => x < y
  | val _, nan => False
  | nan, _ => False

instance : Add RF := ⟨add⟩
instance : Sub RF := ⟨sub⟩
instance : Mul RF := ⟨mul⟩
instance : Neg RF := ⟨neg⟩
noncomputable instance : Div RF := ⟨div⟩

noncomputable instance decidableLt : ∀ a b : RF, Decidable (lt a b)
  | val x, val y => inferInstanceAs (Decidable (x < y))
  | val _, nan => isFalse (fun h => h)
  | nan, val _ => isFalse (fun h => h)
  | nan, nan => isFalse (fun h => h)

@[simp] theorem val_add (x y : ℝ) : val x + val y = val (x + y) := rfl

@[simp] theorem nan_add (a : RF) : nan + a = nan := rfl

@[simp] theorem add_nan (a : RF) : a + nan = nan := by cases a <;> rfl

@[simp] theorem val_sub (x y : ℝ) : val x - val y = val (x - y) := rfl

@[simp] theorem nan_sub (a : RF) : nan - a = nan := rfl

@[simp] theorem sub_nan (a : RF) : a - nan = nan := by cases a <;> rfl

@[simp] theorem val_mul (x y : ℝ) : val x * val y = val (x * y) := rfl

@[simp] theorem nan_mul (a : RF) : nan * a = nan := rfl

@[simp] theorem mul_nan (a : RF) : a * nan = nan := by cases a <;> rfl

@[simp] theorem neg_val (x : ℝ) : -(val x) = val (-x) := rfl

@[simp] theorem neg_nan : -(nan : RF) = nan := rfl

@[simp] theorem val_div_val (x y : ℝ) (h : y ≠ 0) : val x / val y = val (x / y) := by
  show div (val x) (val y) = val (x / y)
  simp [div, h]

@[simp] theorem val_div_zero (x : ℝ) : val x / val 0 = nan := by
  show div (val x) (val 0) = nan
  simp [div]

@[simp] theorem nan_div (a : RF) : nan / a = nan := rfl

@[simp] theorem div_nan (a : RF) : a / nan = nan := by cases a <;> rfl

@[simp] theorem sqrt_val_nonneg (x : ℝ) (h : 0 ≤ x) : sqrt (val x) = val (Real.sqrt x) := by
  simp [sqrt, not_lt.mpr h]

@[simp] theorem sqrt_val_neg (x : ℝ) (h : x < 0) : sqrt (val x) = nan := by
  simp [sqrt, h]

@[simp] theorem sqrt_nan : sqrt nan = nan := rfl

@[simp] theorem lt_val_val (x y : ℝ) : lt (val x) (val y) ↔ x < y := Iff.rfl

@[simp] theorem not_lt_nan (a : RF) : ¬ lt a nan := by cases a <;> exact fun h => h

@[simp] theorem not_nan_lt (a : RF) : ¬ lt nan a := fun h => h

theorem lt_trans {a b c : RF} (hab : lt a b) (hbc : lt b c) : lt a c := by
  cases a <;> cases b <;> cases c <;> simp_all
  exact hab.trans hbc

/-- A true strict comparison forces both sides to be real values. -/
theorem lt_elim {a b : RF} (h : lt a b) : ∃ x y, a = val x ∧ b = val y ∧ x < y := by
  cases a <;> cases b <;> simp_all

end RF

/-- Three-component float vector (`pt_math::Vec3`), NaN-aware level. -/
structure Vec3 where
  x : RF
  y : RF
  z : RF

namespace Vec3

/-- Constructor `Vec3::new`. -/
def new (x y z : RF) : Vec3 := ⟨x, y, z⟩

instance : Add Vec3 := ⟨fun a b => ⟨a.x + b.x, a.y + b.y, a.z + b.z⟩⟩
instance : Sub Vec3 := ⟨fun a b => ⟨a.x - b.x, a.y - b.y, a.z - b.z⟩⟩
instance : Neg Vec3 := ⟨fun a => ⟨-a.x, -a.y, -a.z⟩⟩
instance : HMul Vec3 RF Vec3 := ⟨fun v r => ⟨v.x * r, v.y * r, v.z * r⟩⟩
instance : HMul RF Vec3 Vec3 := ⟨fun r v => ⟨v.x * r, v.y * r, v.z * r⟩⟩
noncomputable instance : HDiv Vec3 RF Vec3 := ⟨fun v r => ⟨v.x / r, v.y / r, v.z / r⟩⟩

/-- Method `Vec3::squared_length`. -/
def squared_length (v : Vec3) : RF := v.x * v.x + v.y * v.y + v.z * v.z

/-- Method `Vec3::length`: square root of the sum of squared components. -/
noncomputable def length (v : Vec3) : RF := RF.sqrt (v.x * v.x + v.y * v.y + v.z * v.z)

@[simp] theorem mk_add (a b c d e f : RF) :
    (⟨a, b, c⟩ : Vec3) + ⟨d, e, f⟩ = ⟨a + d, b + e, c + f⟩ := rfl

@[simp] theorem mk_sub (a b c d e f : RF) :
    (⟨a, b, c⟩ : Vec3) - ⟨d, e, f⟩ = ⟨a - d, b - e, c - f⟩ := rfl

@[simp] theorem mk_mul (a b c : RF) (r : RF) :
    (⟨a, b, c⟩ : Vec3) * r = ⟨a * r, b * r, c * r⟩ := rfl

@[simp] theorem mul_mk (a b c : RF) (r : RF) :
    r * (⟨a, b, c⟩ : Vec3) = ⟨a * r, b * r, c * r⟩ := rfl

@[simp] theorem mk_div (a b c : RF) (r : RF) :
    (⟨a, b, c⟩ : Vec3) / r = ⟨a / r, b / r, c / r⟩ := rfl

end Vec3

/-- Function `pt_math::dot`. -/
def dot (v1 v2 : Vec3) : RF := v1.x * v2.x + v1.y * v2.y + v1.z * v2.z

/-- Function `pt_math::mul_component` (component-wise product, used for
attenuation along a light path). -/
def mul_component (v1 v2 : Vec3) : Vec3 := ⟨v1.x * v2.x, v1.y * v2.y, v1.z * v2.z⟩

/-- Function `pt_math::unit_vector`: divides each component by the length. -/
noncomputable def unit_vector (v : Vec3) : Vec3 :=
  ⟨v.x / v.length, v.y / v.length, v.z / v.length⟩

/-- A ray with origin and (not necessarily unit) direction (`pt_math::Ray`). -/
structure Ray where
  origin : Vec3
  direction : Vec3

/-- Method `Ray::point_at_parameter`: `origin + direction * t`. -/
def Ray.point_at_parameter (r : Ray) (t : RF) : Vec3 := r.origin + r.direction * t

/-- Result of an intersection query (`objects::HitRecord`); the material is a
reference to the hit object's material, embedded here as an abstract type `μ`
(the source stores a `&dyn Material` trait object). -/
structure HitRecord (μ : Type) where
  t : RF
  point : Vec3
  normal : Vec3
  material : μ

/-- A sphere with center, radius and an owned material (`objects::Sphere`). -/
structure Sphere (μ : Type) where
  center : Vec3
  radius : RF
  material : μ

/-- Method `Sphere::hit` (objects.rs:34-56), translated line by line: half-form
quadratic coefficients, near root when the discriminant is positive, far root
otherwise, hit accepted only when the computed root is strictly inside
`(t_min, t_max)`. -/
noncomputable def Sphere.hit {μ : Type} (s : Sphere μ) (ray : Ray) (t_min t_max : RF) :
    Option (HitRecord μ) :=
  let oc := ray.origin - s.center
  let a := dot ray.direction ray.direction
  let b := dot oc ray.direction
  let c := dot oc oc - s.radius * s.radius
  let discriminant := b * b - a * c
  if RF.lt (RF.val 0) discriminant then
    let t := (-b - RF.sqrt discriminant) / a
    if RF.lt t t_max ∧ RF.lt t_min t then
      some { t := t, point := ray.point_at_parameter t,
             normal := (ray.point_at_parameter t - s.center) / s.radius,
             material := s.material }
    else none
  else
    let t := (-b + RF.sqrt discriminant) / a
    if RF.lt t t_max ∧ RF.lt t_min t then
      some { t := t, point := ray.point_at_parameter t,
             normal := (ray.point_at_parameter t - s.center) / s.radius,
             material := s.material }
    else none

/-- Flat scene container (`objects::HitableList`): an ordered list of spheres. -/
structure HitableList (μ : Type) where
  objects : List (Sphere μ)

/-- One iteration of the `HitableList::hit` loop body: test the object against
the running closest bound `acc.1`; on a hit, shrink the bound to the accepted
`t` and replace the stored record. -/
noncomputable def scanStep {μ : Type} (ray : Ray) (t_min : RF)
    (acc : RF × Option (HitRecord μ)) (obj : Sphere μ) : RF × Option (HitRecord μ) :=
  match Sphere.hit obj ray t_min acc.1 with
  | some hr => (hr.t, some hr)
  | none => acc

/-- Method `HitableList::hit` (objects.rs:78-88): linear scan, keeping the
closest accepted hit by shrinking the upper bound to the current closest `t`
(`closest` starts at `t_max`, `hit_record` at `None`). -/
noncomputable def HitableList.hit {μ : Type} (l : HitableList μ) (ray : Ray)
    (t_min t_max : RF) : Option (HitRecord μ) :=
  (l.objects.foldl (scanStep ray t_min) (t_max, none)).2

/-- Quadratic coefficient `a = dot(direction, direction)` named by the claim. -/
def quadA (_s : Sphere μ) (ray : Ray) : RF := dot ray.direction ray.direction

/-- Quadratic coefficient `b = dot(origin - center, direction)` named by the claim. -/
def quadB (s : Sphere μ) (ray : Ray) : RF := dot (ray.origin - s.center) ray.direction

/-- Quadratic coefficient `c = dot(origin - center, origin - center) - radius²`. -/
def quadC (s : Sphere μ) (ray : Ray) : RF :=
  dot (ray.origin - s.center) (ray.origin - s.center) - s.radius * s.radius

/-- Half-form discriminant `b² - a·c`. -/
def quadDisc (s : Sphere μ) (ray : Ray) : RF := quadB s ray * quadB s ray - quadA s ray * quadC s ray

/-- Near root `(-b - sqrt(disc))/a`. -/
noncomputable def nearRoot (s : Sphere μ) (ray : Ray) : RF :=
  (-quadB s ray - RF.sqrt (quadDisc s ray)) / quadA s ray

/-- Far root `(-b + sqrt(disc))/a`. -/
noncomputable def farRoot (s : Sphere μ) (ray : Ray) : RF :=
  (-quadB s ray + RF.sqrt (quadDisc s ray)) / quadA s ray

/-- The single root the implementation tries: the near root when the
discriminant is positive, the far root otherwise. -/
noncomputable def selectedRoot (s : Sphere μ) (ray : Ray) : RF :=
  if RF.lt (RF.val 0) (quadDisc s ray) then nearRoot s ray else farRoot s ray

/-- Functional characterization of `Sphere.hit`: it computes the selected root
and returns a hit exactly when that root lies strictly inside `(t_min, t_max)`. -/
theorem Sphere.hit_eq {μ : Type} (s : Sphere μ) (ray : Ray) (t_min t_max : RF) :
    s.hit ray t_min t_max =
      if RF.lt (selectedRoot s ray) t_max ∧ RF.lt t_min (selectedRoot s ray) then
        some { t := selectedRoot s ray,
               point := ray.point_at_parameter (selectedRoot s ray),
               normal := (ray.point_at_parameter (selectedRoot s ray) - s.center) / s.radius,
               material := s.material }
      else none := by
  by_cases h : RF.lt (RF.val 0) (quadDisc s ray)
  all_goals simp only [Sphere.hit, selectedRoot, nearRoot, farRoot, quadDisc, quadA, quadB,
    quadC] at h ⊢
  · simp only [if_pos h]
  · simp only [if_neg h]

/-- The hit record `Sphere.hit` builds when it accepts the selected root. -/
noncomputable def Sphere.record {μ : Type} (s : Sphere μ) (ray : Ray) : HitRecord μ :=
  { t := selectedRoot s ray,
    point := ray.point_at_parameter (selectedRoot s ray),
    normal := (ray.point_at_parameter (selectedRoot s ray) - s.center) / s.radius,
    material := s.material }

theorem Sphere.hit_some_iff {μ : Type} {s : Sphere μ} {ray : Ray} {t_min t_max : RF}
    {hr : HitRecord μ} :
    s.hit ray t_min t_max = some hr ↔
      RF.lt (selectedRoot s ray) t_max ∧ RF.lt t_min (selectedRoot s ray) ∧ hr = s.record ray := by
  rw [Sphere.hit_eq]
  by_cases h : RF.lt (selectedRoot s ray) t_max ∧ RF.lt t_min (selectedRoot s ray)
  · rw [if_pos h]
    simp only [Option.some.injEq]
    constructor
    · intro e; exact ⟨h.1, h.2, e.symm⟩
    · intro ⟨_, _, e⟩; exact e.symm
  · rw [if_neg h]
    constructor
    · intro e; cases e
    · intro ⟨h1, h2, _⟩; exact absurd ⟨h1, h2⟩ h

theorem Sphere.hit_none_iff {μ : Type} {s : Sphere μ} {ray : Ray} {t_min t_max : RF} :
    s.hit ray t_min t_max = none ↔
      ¬(RF.lt (selectedRoot s ray) t_max ∧ RF.lt t_min (selectedRoot s ray)) := by
  rw [Sphere.hit_eq]
  by_cases h : RF.lt (selectedRoot s ray) t_max ∧ RF.lt t_min (selectedRoot s ray)
  · simp [if_pos h, h]
  · simp [if_neg h, h]

/-- An accepted hit lies strictly inside the queried interval. -/
theorem Sphere.hit_t_mem {μ : Type} {s : Sphere μ} {ray : Ray} {t_min t_max : RF}
    {hr : HitRecord μ} (h : s.hit ray t_min t_max = some hr) :
    RF.lt t_min hr.t ∧ RF.lt hr.t t_max := by
  obtain ⟨h1, h2, rfl⟩ := Sphere.hit_some_iff.mp h
  exact ⟨h2, h1⟩

/-- The accepted root does not depend on the interval: a hit accepted under a
tighter upper bound is also accepted under any upper bound above its `t`. -/
theorem Sphere.hit_mono {μ : Type} {s : Sphere μ} {ray : Ray} {t_min c t_max : RF}
    {hr : HitRecord μ} (h : s.hit ray t_min c = some hr) (hlt : RF.lt hr.t t_max) :
    s.hit ray t_min t_max = some hr := by
  obtain ⟨_, h2, rfl⟩ := Sphere.hit_some_iff.mp h
  exact Sphere.hit_some_iff.mpr ⟨hlt, h2, rfl⟩

/-- A sphere rejected under upper bound `c` cannot report, under a wider bound,
a hit strictly below `c`. -/
theorem Sphere.hit_none_not_lt {μ : Type} {s : Sphere μ} {ray : Ray} {t_min c t_max : RF}
    {hr : HitRecord μ} (hn : s.hit ray t_min c = none) (hs : s.hit ray t_min t_max = some hr) :
    ¬ RF.lt hr.t c := by
  obtain ⟨_, h2, rfl⟩ := Sphere.hit_some_iff.mp hs
  intro hlt
  exact (Sphere.hit_none_iff.mp hn) ⟨hlt, h2⟩

theorem RF.lt_irrefl (a : RF) : ¬ RF.lt a a := by
  cases a
  · exact fun h => (lt_self_iff_false _).mp h
  · exact fun h => h

/-- C1: for every sphere and ray, `Sphere::hit` computes the half-form quadratic
coefficients `a = dot(direction, direction)`, `b = dot(origin - center, direction)`,
`c = dot(origin - center, origin - center) - radius²` and the discriminant
`b² - a·c`; when the discriminant is positive it computes only the near root
`(-b - sqrt(disc))/a`, otherwise only the far root `(-b + sqrt(disc))/a`, and it
returns a hit exactly when the root so computed lies strictly inside
`(t_min, t_max)`; in particular, when the discriminant is positive and the near
root is outside the interval, the result is no hit even if the far root would be
inside. -/
theorem sphere_hit_root_selection {μ : Type} (s : Sphere μ) (ray : Ray) (t_min t_max : RF) :
    (s.hit ray t_min t_max ≠ none ↔
      RF.lt (selectedRoot s ray) t_max ∧ RF.lt t_min (selectedRoot s ray)) ∧
    (∀ hr : HitRecord μ, s.hit ray t_min t_max = some hr → hr.t = selectedRoot s ray) ∧
    (RF.lt (RF.val 0) (quadDisc s ray) →
      ¬(RF.lt (nearRoot s ray) t_max ∧ RF.lt t_min (nearRoot s ray)) →
      s.hit ray t_min t_max = none) := by
  refine ⟨?_, ?_, ?_⟩
  · rw [Ne, Sphere.hit_none_iff, not_not]
  · intro hr h
    obtain ⟨_, _, rfl⟩ := Sphere.hit_some_iff.mp h
    rfl
  · intro hd hout
    rw [Sphere.hit_none_iff, selectedRoot, if_pos hd]
    exact hout

/-- Invariant of the `HitableList::hit` scan after some prefix of the object
list has been processed: either nothing was accepted yet (the bound is still
`t_max` and every processed sphere misses even the full interval), or the
accumulator stores the record of a processed sphere, accepted inside the
original interval, and no processed sphere reports a strictly closer hit. -/
def ScanInv {μ : Type} (ray : Ray) (t_min t_max : RF) (processed : List (Sphere μ))
    (acc : RF × Option (HitRecord μ)) : Prop :=
  (acc = (t_max, none) ∧ ∀ s ∈ processed, Sphere.hit s ray t_min t_max = none) ∨
  (∃ hr, acc = (hr.t, some hr) ∧ RF.lt t_min hr.t ∧ RF.lt hr.t t_max ∧
    (∃ s ∈ processed, Sphere.hit s ray t_min t_max = some hr) ∧
    ∀ s ∈ processed, ∀ hr', Sphere.hit s ray t_min t_max = some hr' → ¬ RF.lt hr'.t hr.t)

theorem scanStep_inv {μ : Type} {ray : Ray} {t_min t_max : RF} {processed : List (Sphere μ)}
    {acc : RF × Option (HitRecord μ)} (o : Sphere μ)
    (h : ScanInv ray t_min t_max processed acc) :
    ScanInv ray t_min t_max (processed ++ [o]) (scanStep ray t_min acc o) := by
  rcases h with ⟨rfl, hall⟩ | ⟨hr0, rfl, h1, h2, ⟨s0, hs0mem, hs0⟩, hmin⟩
  · rcases ho : Sphere.hit o ray t_min t_max with _ | hr
    · left
      refine ⟨?_, ?_⟩
      · simp [scanStep, ho]
      · intro s hs
        rcases List.mem_append.mp hs with hs | hs
        · exact hall s hs
        · rw [List.mem_singleton.mp hs]; exact ho
    · right
      refine ⟨hr, by simp [scanStep, ho], (Sphere.hit_t_mem ho).1, (Sphere.hit_t_mem ho).2,
        ⟨o, List.mem_append.mpr (Or.inr (List.mem_singleton.mpr rfl)), ho⟩, ?_⟩
      intro s hs hr' h'
      rcases List.mem_append.mp hs with hs | hs
      · rw [hall s hs] at h'; cases h'
      · rw [List.mem_singleton.mp hs] at h'
        rw [ho] at h'
        cases h'
        exact RF.lt_irrefl hr.t
  · rcases ho : Sphere.hit o ray t_min hr0.t with _ | hr1
    · right
      refine ⟨hr0, by simp [scanStep, ho], h1, h2,
        ⟨s0, List.mem_append.mpr (Or.inl hs0mem), hs0⟩, ?_⟩
      intro s hs hr' h'
      rcases List.mem_append.mp hs with hs | hs
      · exact hmin s hs hr' h'
      · rw [List.mem_singleton.mp hs] at h'
        exact Sphere.hit_none_not_lt ho h'
    · have hmem := Sphere.hit_t_mem ho
      have hlt_max : RF.lt hr1.t t_max := RF.lt_trans hmem.2 h2
      have hfull : Sphere.hit o ray t_min t_max = some hr1 := Sphere.hit_mono ho hlt_max
      right
      refine ⟨hr1, by simp [scanStep, ho], hmem.1, hlt_max,
        ⟨o, List.mem_append.mpr (Or.inr (List.mem_singleton.mpr rfl)), hfull⟩, ?_⟩
      intro s hs hr' h'
      rcases List.mem_append.mp hs with hs | hs
      · have hold : ¬ RF.lt hr'.t hr0.t := hmin s hs hr' h'
        obtain ⟨x1, x0, e1, e0, hx⟩ := RF.lt_elim hmem.2
        obtain ⟨xm, x', em, e', _⟩ := RF.lt_elim (Sphere.hit_t_mem h').1
        rw [e', e0] at hold
        rw [e', e1]
        simp only [RF.lt_val_val] at hold ⊢
        intro hc
        exact hold (hc.trans hx)
      · rw [List.mem_singleton.mp hs] at h'
        rw [hfull] at h'
        cases h'
        exact RF.lt_irrefl hr1.t

theorem scan_inv {μ : Type} (ray : Ray) (t_min t_max : RF) :
    ∀ (l processed : List (Sphere μ)) (acc : RF × Option (HitRecord μ)),
      ScanInv ray t_min t_max processed acc →
      ScanInv ray t_min t_max (processed ++ l) (l.foldl (scanStep ray t_min) acc) := by
  intro l
  induction l with
  | nil => intro processed acc h; simpa using h
  | cons o rest ih =>
      intro processed acc h
      have h2 := ih (processed ++ [o]) (scanStep ray t_min acc o) (scanStep_inv o h)
      simpa [List.append_assoc] using h2

/-- C8: the scene query returns `None` exactly when no sphere in the list
reports a hit within the interval; otherwise it returns a hit record of one of
the spheres, accepted strictly inside `(t_min, t_max)`, such that no sphere in
the list reports an accepted hit with a strictly smaller `t`. -/
theorem hitable_list_closest_hit {μ : Type} (l : HitableList μ) (ray : Ray) (t_min t_max : RF) :
    (l.hit ray t_min t_max = none ↔ ∀ s ∈ l.objects, Sphere.hit s ray t_min t_max = none) ∧
    (∀ hr : HitRecord μ, l.hit ray t_min t_max = some hr →
      RF.lt t_min hr.t ∧ RF.lt hr.t t_max ∧
      (∃ s ∈ l.objects, Sphere.hit s ray t_min t_max = some hr) ∧
      ∀ s ∈ l.objects, ∀ hr', Sphere.hit s ray t_min t_max = some hr' → ¬ RF.lt hr'.t hr.t) := by
  have hinv : ScanInv ray t_min t_max l.objects
      (l.objects.foldl (scanStep ray t_min) (t_max, none)) := by
    have h0 : ScanInv ray t_min t_max ([] : List (Sphere μ)) (t_max, none) :=
      Or.inl ⟨rfl, by simp⟩
    simpa using scan_inv ray t_min t_max l.objects [] (t_max, none) h0
  constructor
  · constructor
    · intro hnone
      rcases hinv with ⟨_, hall⟩ | ⟨hr0, hacc, _⟩
      · exact hall
      · rw [HitableList.hit, hacc] at hnone; cases hnone
    · intro hall
      rcases hinv with ⟨hacc, _⟩ | ⟨hr0, hacc, _, _, ⟨s0, hs0mem, hs0⟩, _⟩
      · rw [HitableList.hit, hacc]
      · rw [hall s0 hs0mem] at hs0; cases hs0
  · intro hr hsome
    rcases hinv with ⟨hacc, _⟩ | ⟨hr0, hacc, ha, hb, hc, hd⟩
    · rw [HitableList.hit, hacc] at hsome; cases hsome
    · rw [HitableList.hit, hacc] at hsome
      cases hsome
      exact ⟨ha, hb, hc, hd⟩

/-- With a strictly negative discriminant the far-root branch computes
`sqrt` of a negative number, which is NaN, so the root itself is NaN. -/
theorem selectedRoot_of_neg_disc {μ : Type} {s : Sphere μ} {ray : Ray}
    (h : RF.lt (quadDisc s ray) (RF.val 0)) : selectedRoot s ray = RF.nan := by
  obtain ⟨d, z, ed, ez, hdz⟩ := RF.lt_elim h
  have hz : z = 0 := by injection ez.symm
  have hd0 : d < 0 := hz ▸ hdz
  have hnot : ¬ RF.lt (RF.val 0) (quadDisc s ray) := by
    rw [ed, RF.lt_val_val]
    exact fun hc => absurd (hc.trans hd0) (lt_self_iff_false 0).mp
  rw [selectedRoot, if_neg hnot, farRoot, ed, RF.sqrt_val_neg d hd0]
  cases hq : -quadB s ray <;> simp

/-- C10: a strictly negative discriminant can never produce a hit:
the (only reachable) far-root branch takes the square root of the negative
discriminant, which is NaN, the root `t` becomes NaN, both range comparisons
are false on NaN, and `Sphere::hit` returns `None` (total, no panic). -/
theorem sphere_hit_neg_disc_none {μ : Type} (s : Sphere μ) (ray : Ray) (t_min t_max : RF)
    (h : RF.lt (quadDisc s ray) (RF.val 0)) :
    selectedRoot s ray = RF.nan ∧ s.hit ray t_min t_max = none := by
  have hroot := selectedRoot_of_neg_disc h
  refine ⟨hroot, ?_⟩
  rw [Sphere.hit_none_iff, hroot]
  exact fun hc => RF.not_lt_nan t_min hc.2

/-- Witness for C10: the test-suite miss scenario, a sphere of center
`(0,0,-1)`, radius `0.5`, against the ray from the origin along `(1,0,0)`:
its discriminant is negative and the query reports no hit. -/
theorem sphere_hit_neg_disc_none_witness :
    RF.lt (quadDisc (Sphere.mk (Vec3.new (RF.val 0) (RF.val 0) (RF.val (-1))) (RF.val 0.5) ())
        (Ray.mk (Vec3.new (RF.val 0) (RF.val 0) (RF.val 0))
          (Vec3.new (RF.val 1) (RF.val 0) (RF.val 0)))) (RF.val 0) ∧
    Sphere.hit (Sphere.mk (Vec3.new (RF.val 0) (RF.val 0) (RF.val (-1))) (RF.val 0.5) ())
      (Ray.mk (Vec3.new (RF.val 0) (RF.val 0) (RF.val 0))
        (Vec3.new (RF.val 1) (RF.val 0) (RF.val 0)))
      (RF.val 0) (RF.val 100) = none := by
  have hd : RF.lt (quadDisc (Sphere.mk (Vec3.new (RF.val 0) (RF.val 0) (RF.val (-1)))
      (RF.val 0.5) ())
      (Ray.mk (Vec3.new (RF.val 0) (RF.val 0) (RF.val 0))
        (Vec3.new (RF.val 1) (RF.val 0) (RF.val 0)))) (RF.val 0) := by
    simp only [quadDisc, quadA, quadB, quadC, dot, Vec3.new, Vec3.mk_sub, RF.val_sub,
      RF.val_mul, RF.val_add, RF.lt_val_val]
    norm_num
  exact ⟨hd, (sphere_hit_neg_disc_none _ _ _ _ hd).2⟩

/-- Scattering result (`material::Scatter`): outgoing ray and attenuation. -/
structure Scatter where
  ray : Ray
  color : Vec3

/-- Recursive integrator `path_tracer::color` (path_tracer.rs:69-87).  The
source is generic over the scene (`T: Hitable`) and dispatches scattering
through a `&dyn Material` trait object; here the scene is a `HitableList` over
an abstract material type `μ` and `scatter` is the dispatch function.
Constants of the source: `MIN_DIST = 0.0001`, `MAX_ITX = 50`,
`max_dist = 1000000.0`. -/
noncomputable def color {μ : Type} (scatter : μ → Ray → Vec3 → Vec3 → Option Scatter)
    (world : HitableList μ) (ray : Ray) (depth : ℤ) : Vec3 :=
  match world.hit ray (RF.val 0.0001) (RF.val 1000000) with
  | some hitrecord =>
      if _h : 50 ≤ depth then Vec3.new (RF.val 0) (RF.val 0) (RF.val 0)
      else
        match scatter hitrecord.material ray hitrecord.point hitrecord.normal with
        | some sc => mul_component sc.color (color scatter world sc.ray (depth + 1))
        | none => Vec3.new (RF.val 0) (RF.val 0) (RF.val 0)
  | none =>
      let unit_dir := unit_vector ray.direction
      let t := RF.val 0.5 * (unit_dir.y + RF.val 1)
      Vec3.new (RF.val 1) (RF.val 1) (RF.val 1) * (RF.val 1 - t) +
        Vec3.new (RF.val 0.5) (RF.val 0.7) (RF.val 1) * t
termination_by (50 - depth).toNat
decreasing_by omega

/-- C3 (amended): whenever the scene query reports a hit for the ray, the
integrator at recursion depth `≥ 50` (`MAX_ITX`) returns exactly black; in
particular any hit-producing scene at depth exactly 50 yields `(0,0,0)`.
(As literally stated — for every ray — the claim fails: when the ray misses
the scene, the depth check is never reached and the background gradient is
returned; see the counterexample.) -/
theorem color_depth_cutoff_black {μ : Type} (scatter : μ → Ray → Vec3 → Vec3 → Option Scatter)
    (world : HitableList μ) (ray : Ray) (depth : ℤ) (hr : HitRecord μ)
    (hd : 50 ≤ depth)
    (hhit : world.hit ray (RF.val 0.0001) (RF.val 1000000) = some hr) :
    color scatter world ray depth = Vec3.new (RF.val 0) (RF.val 0) (RF.val 0) := by
  rw [color, hhit]
  simp only [dif_pos hd]

/-- Sphere of the unit tests: center `(0,0,-1)`, radius `0.5` (material abstract). -/
def testSphere : Sphere Unit :=
  ⟨Vec3.new (RF.val 0) (RF.val 0) (RF.val (-1)), RF.val 0.5, ()⟩

/-- Ray of the unit tests: origin `(0,0,0)`, direction `(0,0,-1)`. -/
def testRay : Ray :=
  ⟨Vec3.new (RF.val 0) (RF.val 0) (RF.val 0), Vec3.new (RF.val 0) (RF.val 0) (RF.val (-1))⟩

theorem testSphere_selectedRoot : selectedRoot testSphere testRay = RF.val 0.5 := by
  have hdisc : quadDisc testSphere testRay = RF.val 0.25 := by
    simp only [quadDisc, quadA, quadB, quadC, testSphere, testRay, dot, Vec3.new, Vec3.mk_sub,
      RF.val_sub, RF.val_mul, RF.val_add]
    norm_num
  have hb : quadB testSphere testRay = RF.val (-1) := by
    simp only [quadB, testSphere, testRay, dot, Vec3.new, Vec3.mk_sub, RF.val_sub, RF.val_mul,
      RF.val_add]
    norm_num
  have ha : quadA testSphere testRay = RF.val 1 := by
    simp only [quadA, testSphere, testRay, dot, Vec3.new, RF.val_mul, RF.val_add]
    norm_num
  have hsq : Real.sqrt 0.25 = 0.5 := by
    rw [show (0.25 : ℝ) = 0.5 ^ 2 by norm_num, Real.sqrt_sq (by norm_num)]
  rw [selectedRoot, if_pos (by rw [hdisc]; rw [RF.lt_val_val]; norm_num), nearRoot, hb, hdisc, ha,
    RF.sqrt_val_nonneg _ (by norm_num), hsq, RF.neg_val, RF.val_sub,
    RF.val_div_val _ _ one_ne_zero]
  norm_num

theorem testSphere_hit :
    Sphere.hit testSphere testRay (RF.val 0.0001) (RF.val 1000000) =
      some (Sphere.record testSphere testRay) := by
  refine Sphere.hit_some_iff.mpr ⟨?_, ?_, rfl⟩
  · rw [testSphere_selectedRoot, RF.lt_val_val]; norm_num
  · rw [testSphere_selectedRoot, RF.lt_val_val]; norm_num

theorem testScene_hit :
    HitableList.hit ⟨[testSphere]⟩ testRay (RF.val 0.0001) (RF.val 1000000) =
      some (Sphere.record testSphere testRay) := by
  rw [HitableList.hit]
  simp only [List.foldl_cons, List.foldl_nil, scanStep, testSphere_hit]

/-- Witness for C3 (amended): a scene holding the test sphere, queried with a
ray that hits it, at depth exactly 50, yields exactly black. -/
theorem color_depth_cutoff_black_witness :
    (50 : ℤ) ≤ 50 ∧
    HitableList.hit ⟨[testSphere]⟩ testRay (RF.val 0.0001) (RF.val 1000000) =
      some (Sphere.record testSphere testRay) ∧
    color (fun (_ : Unit) _ _ _ => none) ⟨[testSphere]⟩ testRay 50 =
      Vec3.new (RF.val 0) (RF.val 0) (RF.val 0) :=
  ⟨le_refl 50, testScene_hit,
    color_depth_cutoff_black (fun (_ : Unit) _ _ _ => none) ⟨[testSphere]⟩ testRay 50
      (Sphere.record testSphere testRay) (le_refl 50) testScene_hit⟩

/-- Counterexample for C3 as literally stated: with the empty scene (a legal
`HitableList`) and the upward ray, depth 50 returns the sky gradient
`(0.5, 0.7, 1.0)`, not black. -/
theorem color_depth_cutoff_counterexample :
    color (fun (_ : Unit) _ _ _ => none) (HitableList.mk [])
        (Ray.mk (Vec3.new (RF.val 0) (RF.val 0) (RF.val 0))
          (Vec3.new (RF.val 0) (RF.val 1) (RF.val 0))) 50 ≠
      Vec3.new (RF.val 0) (RF.val 0) (RF.val 0) := by
  have hmiss : HitableList.hit (HitableList.mk ([] : List (Sphere Unit)))
      (Ray.mk (Vec3.new (RF.val 0) (RF.val 0) (RF.val 0))
        (Vec3.new (RF.val 0) (RF.val 1) (RF.val 0)))
      (RF.val 0.0001) (RF.val 1000000) = none := rfl
  have hlen : Vec3.length ⟨RF.val 0, RF.val 1, RF.val 0⟩ = RF.val 1 := by
    simp only [Vec3.length, RF.val_mul, RF.val_add]
    rw [RF.sqrt_val_nonneg _ (by norm_num), show (0 * 0 + 1 * 1 + 0 * 0 : ℝ) = 1 by norm_num,
      Real.sqrt_one]
  have hud : unit_vector ⟨RF.val 0, RF.val 1, RF.val 0⟩ =
      (⟨RF.val 0, RF.val 1, RF.val 0⟩ : Vec3) := by
    simp only [unit_vector, hlen, RF.val_div_val _ _ one_ne_zero]
    norm_num
  rw [color, hmiss]
  simp only [Vec3.new, hud, Vec3.mk_mul, Vec3.mk_add, RF.val_mul, RF.val_add, RF.val_sub,
    ne_eq, Vec3.mk.injEq, RF.val.injEq]
  norm_num

@[simp] theorem RF.zero_add (a : RF) : RF.val 0 + a = a := by
  cases a with
  | val x => rw [RF.val_add]; norm_num
  | nan => rfl

@[simp] theorem Vec3.div_x (v : Vec3) (r : RF) : (v / r).x = v.x / r := rfl

@[simp] theorem Vec3.div_y (v : Vec3) (r : RF) : (v / r).y = v.y / r := rfl

@[simp] theorem Vec3.div_z (v : Vec3) (r : RF) : (v / r).z = v.z / r := rfl

theorem Vec3.zero_add_vec (v : Vec3) :
    Vec3.new (RF.val 0) (RF.val 0) (RF.val 0) + v = v := by
  cases v
  simp [Vec3.new]

/-- Accumulation buffer (`path_tracer::Image`).  The pixel array (a
`Vec<Vec3>` of length `width*height` in the source) is embedded as a function
from the flat index; the rendering loop only ever touches indices below
`width*height`. -/
structure Image where
  width : ℕ
  height : ℕ
  data : ℕ → Vec3
  samples : ℕ

namespace Image

/-- Constructor `Image::new` (path_tracer.rs:17-26): `width*height` zero
vectors and a zero sample counter. -/
def new (width height : ℕ) : Image :=
  { width := width, height := height,
    data := fun _ => Vec3.new (RF.val 0) (RF.val 0) (RF.val 0), samples := 0 }

/-- Method `Image::val` (path_tracer.rs:51-55): divide the accumulated pixel
by `samples as f32` (no guard), then gamma-correct with a per-component square
root. -/
noncomputable def val (img : Image) (i : ℕ) : Vec3 :=
  let col := img.data i / RF.val (img.samples : ℝ)
  Vec3.new (RF.sqrt col.x) (RF.sqrt col.y) (RF.sqrt col.z)

/-- Conversion described by the spec's sentence for C2: division guarded by
`max(samples, 1)`.  Written from the spec's words, to be compared with the
source's `Image::val`. -/
noncomputable def val_guarded (img : Image) (i : ℕ) : Vec3 :=
  let col := img.data i / RF.val ((max img.samples 1 : ℕ) : ℝ)
  Vec3.new (RF.sqrt col.x) (RF.sqrt col.y) (RF.sqrt col.z)

/-- Rust's `as u8` cast on an `f32`: NaN becomes 0, otherwise truncate toward
zero and saturate to `[0, 255]`. -/
noncomputable def toU8 : RF → ℕ
  | RF.nan => 0
  | RF.val x => min 255 (Int.toNat ⌊x⌋)

/-- Method `Image::val_rgb` (path_tracer.rs:57-66): read the pixel at `(i, j)`
through the vertical flip `(height - j - 1)*width + i`, scale each
gamma-corrected component by 255.99 and cast it to a byte. -/
noncomputable def val_rgb (img : Image) (i j : ℕ) : ℕ × ℕ × ℕ :=
  let idx := (img.height - j - 1) * img.width + i
  let v := img.val idx
  (toU8 (v.x * RF.val 255.99), toU8 (v.y * RF.val 255.99), toU8 (v.z * RF.val 255.99))

end Image

/-- Body of the inner (column) loop of `render_step`: add this pass's radiance
for pixel `(i, j)` into `data[j*width+i]` (the source's
`let mut col = Vec3::new(0,0,0); col = col + color(...)` followed by the
in-place addition). -/
def accumPixel (w : ℕ) (sample : ℕ → ℕ → Vec3) (j : ℕ) (d : ℕ → Vec3) (i : ℕ) : ℕ → Vec3 :=
  Function.update d (j * w + i)
    (d (j * w + i) + (Vec3.new (RF.val 0) (RF.val 0) (RF.val 0) + sample i j))

/-- Body of the outer (row) loop of `render_step`. -/
def accumRow (w : ℕ) (sample : ℕ → ℕ → Vec3) (d : ℕ → Vec3) (j : ℕ) : ℕ → Vec3 :=
  (List.range w).foldl (accumPixel w sample j) d

/-- One full-frame pass `path_tracer::render_step` (path_tracer.rs:145-160).
The per-pixel radiance `color(camera.get_ray(u,v), world, 0)` computed with
this pass's random jitter and scattering draws is abstracted as `sample i j`;
the double loop adds it into `data[j*width+i]` for every pixel and, after all
pixels are processed, `samples` is incremented by exactly one. -/
def render_step (sample : ℕ → ℕ → Vec3) (img : Image) : Image :=
  { img with
    data := (List.range img.height).foldl (accumRow img.width sample) img.data,
    samples := img.samples + 1 }

/-- Loop `path_tracer::render` (path_tracer.rs:138-143): `k` successive calls
to `render_step`, pass `m` drawing the radiance samples `S m`. -/
def render (S : ℕ → ℕ → ℕ → Vec3) : ℕ → Image → Image
  | 0, img => img
  | k + 1, img => render_step (S k) (render S k img)

theorem foldl_accumPixel_untouched {w j : ℕ} {sample : ℕ → ℕ → Vec3} (l : List ℕ)
    (d : ℕ → Vec3) (idx : ℕ) (h : ∀ i ∈ l, idx ≠ j * w + i) :
    l.foldl (accumPixel w sample j) d idx = d idx := by
  induction l generalizing d with
  | nil => rfl
  | cons a t ih =>
      rw [List.foldl_cons, ih _ (fun i hi => h i (List.mem_cons_of_mem a hi))]
      exact Function.update_noteq (h a (List.mem_cons_self a t)) _ d

theorem foldl_accumPixel_touched {w j : ℕ} {sample : ℕ → ℕ → Vec3} (l : List ℕ)
    (d : ℕ → Vec3) (i0 : ℕ) (hmem : i0 ∈ l) (hnd : l.Nodup) :
    l.foldl (accumPixel w sample j) d (j * w + i0) =
      d (j * w + i0) + (Vec3.new (RF.val 0) (RF.val 0) (RF.val 0) + sample i0 j) := by
  induction l generalizing d with
  | nil => cases hmem
  | cons a t ih =>
      rw [List.foldl_cons]
      rcases eq_or_ne a i0 with rfl | hne
      · have hnotin : a ∉ t := (List.nodup_cons.mp hnd).1
        have huntouched : ∀ i ∈ t, j * w + a ≠ j * w + i := by
          intro i hi hc
          have hai : a = i := Nat.add_left_cancel hc
          subst hai
          exact hnotin hi
        rw [foldl_accumPixel_untouched t _ _ huntouched, accumPixel, Function.update_same]
      · have hmem' : i0 ∈ t := by
          rcases List.mem_cons.mp hmem with h | h
          · exact absurd h.symm hne
          · exact h
        rw [ih _ hmem' (List.nodup_cons.mp hnd).2]
        have hx : j * w + i0 ≠ j * w + a := fun hc => hne (Nat.add_left_cancel hc).symm
        rw [accumPixel, Function.update_noteq hx]

/-- Distinct pixel coordinates map to distinct flat indices. -/
theorem flat_index_inj {w j j1 i i1 : ℕ} (hi : i < w) (hi1 : i1 < w)
    (h : j * w + i = j1 * w + i1) : j = j1 ∧ i = i1 := by
  have hw : 0 < w := Nat.lt_of_le_of_lt (Nat.zero_le i) hi
  have e : (j * w + i) / w = j := by
    rw [mul_comm, Nat.mul_add_div hw, Nat.div_eq_of_lt hi, add_zero]
  have e1 : (j1 * w + i1) / w = j1 := by
    rw [mul_comm, Nat.mul_add_div hw, Nat.div_eq_of_lt hi1, add_zero]
  have hj : j = j1 := by rw [← e, ← e1, h]
  subst hj
  exact ⟨rfl, Nat.add_left_cancel h⟩

theorem foldl_accumRow_untouched {w : ℕ} {sample : ℕ → ℕ → Vec3} (l : List ℕ)
    (d : ℕ → Vec3) (idx : ℕ) (h : ∀ j ∈ l, ∀ i ∈ List.range w, idx ≠ j * w + i) :
    l.foldl (accumRow w sample) d idx = d idx := by
  induction l generalizing d with
  | nil => rfl
  | cons a t ih =>
      rw [List.foldl_cons, ih _ (fun j hj => h j (List.mem_cons_of_mem a hj))]
      exact foldl_accumPixel_untouched _ _ _ (h a (List.mem_cons_self a t))

theorem foldl_accumRow_touched {w : ℕ} {sample : ℕ → ℕ → Vec3} (l : List ℕ)
    (d : ℕ → Vec3) (j0 i0 : ℕ) (hi : i0 < w) (hmem : j0 ∈ l) (hnd : l.Nodup) :
    l.foldl (accumRow w sample) d (j0 * w + i0) =
      d (j0 * w + i0) + (Vec3.new (RF.val 0) (RF.val 0) (RF.val 0) + sample i0 j0) := by
  induction l generalizing d with
  | nil => cases hmem
  | cons a t ih =>
      rw [List.foldl_cons]
      rcases eq_or_ne a j0 with rfl | hne
      · have hnotin : a ∉ t := (List.nodup_cons.mp hnd).1
        have huntouched : ∀ j ∈ t, ∀ i ∈ List.range w, a * w + i0 ≠ j * w + i := by
          intro j hj i hiw hc
          have := flat_index_inj hi (List.mem_range.mp hiw) hc
          exact hnotin (this.1 ▸ hj)
        rw [foldl_accumRow_untouched t _ _ huntouched, accumRow,
          foldl_accumPixel_touched _ _ _ (List.mem_range.mpr hi) (List.nodup_range w)]
      · have hmem' : j0 ∈ t := by
          rcases List.mem_cons.mp hmem with h | h
          · exact absurd h.symm hne
          · exact h
        rw [ih _ hmem' (List.nodup_cons.mp hnd).2, accumRow]
        have huntouched : ∀ i ∈ List.range w, j0 * w + i0 ≠ a * w + i := by
          intro i hiw hc
          exact hne ((flat_index_inj hi (List.mem_range.mp hiw) hc).1).symm
        rw [foldl_accumPixel_untouched _ _ _ huntouched]

/-- One pass adds (never overwrites) this pass's radiance into each pixel. -/
theorem render_step_data (sample : ℕ → ℕ → Vec3) (img : Image) (i j : ℕ)
    (hi : i < img.width) (hj : j < img.height) :
    (render_step sample img).data (j * img.width + i) =
      img.data (j * img.width + i) + (Vec3.new (RF.val 0) (RF.val 0) (RF.val 0) + sample i j) :=
  foldl_accumRow_touched _ _ _ _ hi (List.mem_range.mpr hj) (List.nodup_range _)

/-- Sum of the first `k` per-pass radiance contributions for pixel `(i, j)`. -/
def contribSum (S : ℕ → ℕ → ℕ → Vec3) (k i j : ℕ) : Vec3 :=
  (List.range k).foldl (fun acc m => acc + S m i j) (Vec3.new (RF.val 0) (RF.val 0) (RF.val 0))

theorem contribSum_succ (S : ℕ → ℕ → ℕ → Vec3) (k i j : ℕ) :
    contribSum S (k + 1) i j = contribSum S k i j + S k i j := by
  rw [contribSum, contribSum, List.range_succ, List.foldl_append, List.foldl_cons,
    List.foldl_nil]

theorem render_invariant (w h : ℕ) (S : ℕ → ℕ → ℕ → Vec3) (i j : ℕ)
    (hi : i < w) (hj : j < h) :
    ∀ k : ℕ, (render S k (Image.new w h)).width = w ∧
      (render S k (Image.new w h)).height = h ∧
      (render S k (Image.new w h)).samples = k ∧
      (render S k (Image.new w h)).data (j * w + i) = contribSum S k i j := by
  intro k
  induction k with
  | zero => exact ⟨rfl, rfl, rfl, rfl⟩
  | succ k ih =>
      obtain ⟨hw, hh, hs, hd⟩ := ih
      refine ⟨hw, hh, by rw [render, render_step, hs], ?_⟩
      rw [render, contribSum_succ, ← hd]
      have := render_step_data (S k) (render S k (Image.new w h)) i j
        (by rw [hw]; exact hi) (by rw [hh]; exact hj)
      rw [hw] at this
      rw [this, Vec3.zero_add_vec]

/-- C4: starting from `Image::new` (zero data, zero samples), after `k` calls
to `render_step` the buffer's `samples` equals `k` and each in-range pixel of
`data` equals the sum of the `k` per-pass radiance contributions for that
pixel (each pass adds into, never overwrites, `data`, and increments `samples`
by exactly one after all pixels are processed), so the gamma-corrected value
at any pixel equals `sqrt(sum_of_k_contributions / k)` component-wise. -/
theorem render_accumulates (w h : ℕ) (S : ℕ → ℕ → ℕ → Vec3) (k i j : ℕ)
    (hi : i < w) (hj : j < h) :
    (render S k (Image.new w h)).samples = k ∧
    (render S k (Image.new w h)).data (j * w + i) = contribSum S k i j ∧
    (render S k (Image.new w h)).val (j * w + i) =
      Vec3.new (RF.sqrt ((contribSum S k i j).x / RF.val (k : ℝ)))
        (RF.sqrt ((contribSum S k i j).y / RF.val (k : ℝ)))
        (RF.sqrt ((contribSum S k i j).z / RF.val (k : ℝ))) := by
  obtain ⟨hw, hh, hs, hd⟩ := render_invariant w h S i j hi hj k
  refine ⟨hs, hd, ?_⟩
  rw [Image.val, hs, hd]
  simp only [Vec3.div_x, Vec3.div_y, Vec3.div_z]

/-- Witness for C4: a one-pixel buffer after one pass whose radiance sample is
`(1,1,1)`: one sample recorded, the pixel holds the sum of its single
contribution, and the displayed value is `sqrt(sum / 1)` component-wise. -/
theorem render_accumulates_witness :
    (0 : ℕ) < 1 ∧
    ((render (fun _ _ _ => Vec3.new (RF.val 1) (RF.val 1) (RF.val 1)) 1
        (Image.new 1 1)).samples = 1 ∧
      (render (fun _ _ _ => Vec3.new (RF.val 1) (RF.val 1) (RF.val 1)) 1
        (Image.new 1 1)).data (0 * 1 + 0) =
        contribSum (fun _ _ _ => Vec3.new (RF.val 1) (RF.val 1) (RF.val 1)) 1 0 0 ∧
      (render (fun _ _ _ => Vec3.new (RF.val 1) (RF.val 1) (RF.val 1)) 1
        (Image.new 1 1)).val (0 * 1 + 0) =
        Vec3.new
          (RF.sqrt ((contribSum (fun _ _ _ => Vec3.new (RF.val 1) (RF.val 1) (RF.val 1)) 1 0 0).x /
            RF.val ((1 : ℕ) : ℝ)))
          (RF.sqrt ((contribSum (fun _ _ _ => Vec3.new (RF.val 1) (RF.val 1) (RF.val 1)) 1 0 0).y /
            RF.val ((1 : ℕ) : ℝ)))
          (RF.sqrt ((contribSum (fun _ _ _ => Vec3.new (RF.val 1) (RF.val 1) (RF.val 1)) 1 0 0).z /
            RF.val ((1 : ℕ) : ℝ)))) :=
  ⟨Nat.zero_lt_one,
    render_accumulates 1 1 (fun _ _ _ => Vec3.new (RF.val 1) (RF.val 1) (RF.val 1)) 1 0 0
      Nat.zero_lt_one Nat.zero_lt_one⟩

/-- Reading a fresh buffer divides zero by zero: NaN in every component. -/
theorem image_new_val_nan (w h i : ℕ) :
    (Image.new w h).val i = ⟨RF.nan, RF.nan, RF.nan⟩ := by
  simp only [Image.val, Image.new, Vec3.new, Vec3.div_x, Vec3.div_y, Vec3.div_z,
    Nat.cast_zero, RF.val_div_zero, RF.sqrt_nan]

/-- C2 (amended): `Image::val` divides the accumulated value by `samples`
directly — there is no `max(samples, 1)` guard.  Whenever at least one pass
has completed the result agrees with the guarded conversion the spec
describes, but reading a buffer with `samples == 0` (fresh from `Image::new`)
computes `0/0`, a total float division yielding NaN in every component (no
trap), which `Image::val_rgb`'s byte cast then turns into `(0,0,0)`. -/
theorem image_val_divides_by_samples :
    (∀ (img : Image) (i : ℕ), 1 ≤ img.samples → img.val i = img.val_guarded i) ∧
    (∀ w h i, (Image.new w h).val i = ⟨RF.nan, RF.nan, RF.nan⟩) ∧
    (∀ w h i j, (Image.new w h).val_rgb i j = (0, 0, 0)) := by
  refine ⟨?_, image_new_val_nan, ?_⟩
  · intro img i h
    rw [Image.val, Image.val_guarded, max_eq_left h]
  · intro w h i j
    rw [Image.val_rgb]
    simp only [image_new_val_nan, RF.nan_mul]
    rfl

/-- Counterexample for C2 as stated: on a fresh one-pixel buffer the source's
conversion (divide by `samples`, here 0) disagrees with the guarded
`max(samples,1)` conversion the claim describes. -/
theorem image_val_guard_counterexample :
    (Image.new 1 1).val 0 ≠ (Image.new 1 1).val_guarded 0 := by
  rw [image_new_val_nan]
  have hg : (Image.new 1 1).val_guarded 0 =
      ⟨RF.val (Real.sqrt 0), RF.val (Real.sqrt 0), RF.val (Real.sqrt 0)⟩ := by
    rw [Image.val_guarded]
    simp only [Image.new, Vec3.new, Vec3.div_x, Vec3.div_y, Vec3.div_z]
    norm_num
  rw [hg]
  simp

namespace Ideal

/-- Three-component float vector (`pt_math::Vec3`), exact-real level. -/
@[ext] structure Vec3 where
  x : ℝ
  y : ℝ
  z : ℝ

namespace Vec3

/-- Constructor `Vec3::new`. -/
def new (x y z : ℝ) : Vec3 := ⟨x, y, z⟩

instance : Add Vec3 := ⟨fun a b => ⟨a.x + b.x, a.y + b.y, a.z + b.z⟩⟩
instance : Sub Vec3 := ⟨fun a b => ⟨a.x - b.x, a.y - b.y, a.z - b.z⟩⟩
instance : Neg Vec3 := ⟨fun a => ⟨-a.x, -a.y, -a.z⟩⟩
instance : HMul Vec3 ℝ Vec3 := ⟨fun v r => ⟨v.x * r, v.y * r, v.z * r⟩⟩
instance : HMul ℝ Vec3 Vec3 := ⟨fun r v => ⟨v.x * r, v.y * r, v.z * r⟩⟩
noncomputable instance : HDiv Vec3 ℝ Vec3 := ⟨fun v r => ⟨v.x / r, v.y / r, v.z / r⟩⟩

@[simp] theorem add_x (a b : Vec3) : (a + b).x = a.x + b.x := rfl

@[simp] theorem add_y (a b : Vec3) : (a + b).y = a.y + b.y := rfl

@[simp] theorem add_z (a b : Vec3) : (a + b).z = a.z + b.z := rfl

@[simp] theorem sub_x (a b : Vec3) : (a - b).x = a.x - b.x := rfl

@[simp] theorem sub_y (a b : Vec3) : (a - b).y = a.y - b.y := rfl

@[simp] theorem sub_z (a b : Vec3) : (a - b).z = a.z - b.z := rfl

@[simp] theorem neg_x (a : Vec3) : (-a).x = -a.x := rfl

@[simp] theorem neg_y (a : Vec3) : (-a).y = -a.y := rfl

@[simp] theorem neg_z (a : Vec3) : (-a).z = -a.z := rfl

@[simp] theorem mulR_x (v : Vec3) (r : ℝ) : (v * r).x = v.x * r := rfl

@[simp] theorem mulR_y (v : Vec3) (r : ℝ) : (v * r).y = v.y * r := rfl

@[simp] theorem mulR_z (v : Vec3) (r : ℝ) : (v * r).z = v.z * r := rfl

@[simp] theorem mulL_x (v : Vec3) (r : ℝ) : (r * v).x = v.x * r := rfl

@[simp] theorem mulL_y (v : Vec3) (r : ℝ) : (r * v).y = v.y * r := rfl

@[simp] theorem mulL_z (v : Vec3) (r : ℝ) : (r * v).z = v.z * r := rfl

@[simp] theorem rdiv_x (v : Vec3) (r : ℝ) : (v / r).x = v.x / r := rfl

@[simp] theorem rdiv_y (v : Vec3) (r : ℝ) : (v / r).y = v.y / r := rfl

@[simp] theorem rdiv_z (v : Vec3) (r : ℝ) : (v / r).z = v.z / r := rfl

/-- Method `Vec3::squared_length`. -/
def squared_length (v : Vec3) : ℝ := v.x * v.x + v.y * v.y + v.z * v.z

/-- Method `Vec3::length`. -/
noncomputable def length (v : Vec3) : ℝ := Real.sqrt (v.x * v.x + v.y * v.y + v.z * v.z)

end Vec3

/-- Function `pt_math::dot`. -/
def dot (v1 v2 : Vec3) : ℝ := v1.x * v2.x + v1.y * v2.y + v1.z * v2.z

/-- Function `pt_math::unit_vector`. -/
noncomputable def unit_vector (v : Vec3) : Vec3 :=
  ⟨v.x / v.length, v.y / v.length, v.z / v.length⟩

/-- A ray with origin and direction (`pt_math::Ray`), exact-real level. -/
structure Ray where
  origin : Vec3
  direction : Vec3

/-- Method `Ray::point_at_parameter`. -/
def Ray.point_at_parameter (r : Ray) (t : ℝ) : Vec3 := r.origin + r.direction * t

/-- Function `material::reflect`: `v - 2*dot(v,n)*n`. -/
def reflect (v n : Vec3) : Vec3 := v - 2 * dot v n * n

/-- Function `material::refract` (material.rs:116-125): Snell's law in vector
form; `None` when the discriminant is not positive (total internal
reflection). -/
noncomputable def refract (v n : Vec3) (ni_over_nt : ℝ) : Option Vec3 :=
  let u := unit_vector v
  let dt := dot u n
  let discriminant := 1 - ni_over_nt * ni_over_nt * (1 - dt * dt)
  if 0 < discriminant then
    some (ni_over_nt * (u - n * dt) - n * Real.sqrt discriminant)
  else none

/-- Function `material::schlick` (material.rs:128-132). -/
noncomputable def schlick (cosine refraction_index : ℝ) : ℝ :=
  let r0 := (1 - refraction_index) / (1 + refraction_index)
  let r1 := r0 * r0
  r1 + (1 - r1) * (1 - cosine) ^ (5 : ℕ)

/-- Scattering result (`material::Scatter`), exact-real level. -/
structure Scatter where
  ray : Ray
  color : Vec3

/-- Diffuse material (`material::Lambertian`). -/
structure Lambertian where
  albedo : Vec3

/-- Method `Lambertian::scatter` (material.rs:34-39), with the random unit
sphere sample `rnd` made explicit: always scatters toward
`hit_point + hit_normal + rnd`, attenuated by the fixed albedo. -/
def Lambertian.scatter (l : Lambertian) (rnd : Vec3) (_ray_in : Ray)
    (hit_point hit_normal : Vec3) : Option Scatter :=
  let target := hit_point + hit_normal + rnd
  some ⟨Ray.mk hit_point (target - hit_point), l.albedo⟩

/-- Fuzzy reflective material (`material::Metal`). -/
structure Metal where
  albedo : Vec3
  fuzz : ℝ

/-- Method `Metal::scatter` (material.rs:56-63), with the random unit sphere
sample `rnd` made explicit: reflect, fuzz, and absorb (return `None`) unless
the outgoing direction makes a positive dot product with the normal. -/
noncomputable def Metal.scatter (m : Metal) (rnd : Vec3) (ray_in : Ray)
    (hit_point hit_normal : Vec3) : Option Scatter :=
  let reflected_dir := reflect (unit_vector ray_in.direction) hit_normal + m.fuzz * rnd
  if 0 < dot reflected_dir hit_normal then
    some ⟨Ray.mk hit_point reflected_dir, m.albedo⟩
  else none

/-- Refractive material (`material::Dielectric`). -/
structure Dielectric where
  refraction_index : ℝ
  fuzz : ℝ
  attenuation : Vec3

/-- Constructor `Dielectric::new`: attenuation fixed to white `(1,1,1)`. -/
def Dielectric.new (refraction_index fuzz : ℝ) : Dielectric :=
  ⟨refraction_index, fuzz, Vec3.new 1 1 1⟩

/-- The `cosine` value `Dielectric::scatter` feeds to `schlick`
(material.rs:83-93): initialized to `refraction_index * dn_dot / |direction|`
and overwritten with `-dn_dot / |direction|` when `dn_dot <= 0` (the ray
enters the medium). -/
noncomputable def Dielectric.cosine (d : Dielectric) (ray_in : Ray) (hit_normal : Vec3) : ℝ :=
  let dn_dot := dot ray_in.direction hit_normal
  let ray_dir_len := ray_in.direction.length
  if dn_dot ≤ 0 then -dn_dot / ray_dir_len
  else d.refraction_index * dn_dot / ray_dir_len

/-- The outward normal `Dielectric::scatter` passes to `refract`
(material.rs:85-93): `-hit_normal`, flipped to `hit_normal` when `dn_dot <= 0`. -/
noncomputable def Dielectric.outward_normal (_d : Dielectric) (ray_in : Ray)
    (hit_normal : Vec3) : Vec3 :=
  if dot ray_in.direction hit_normal ≤ 0 then hit_normal else -hit_normal

/-- The refraction ratio `Dielectric::scatter` passes to `refract`
(material.rs:86-93). -/
noncomputable def Dielectric.ni_over_nt (d : Dielectric) (ray_in : Ray)
    (hit_normal : Vec3) : ℝ :=
  if dot ray_in.direction hit_normal ≤ 0 then 1 / d.refraction_index
  else d.refraction_index

/-- Method `Dielectric::scatter` (material.rs:82-107), with the two random
unit sphere samples and the uniform draw deciding reflection made explicit:
refract when possible, stochastically choosing reflection with probability
`schlick(cosine, refraction_index)`; reflect on total internal reflection;
always scatter, always with the (white) attenuation. -/
noncomputable def Dielectric.scatter (d : Dielectric) (rnd_refl rnd_refr : Vec3)
    (rand_uniform : ℝ) (ray_in : Ray) (hit_point hit_normal : Vec3) : Option Scatter :=
  let reflected_dir := reflect (unit_vector ray_in.direction) hit_normal + d.fuzz * rnd_refl
  match refract ray_in.direction (d.outward_normal ray_in hit_normal)
      (d.ni_over_nt ray_in hit_normal) with
  | some refracted_dir =>
      if rand_uniform < schlick (d.cosine ray_in hit_normal) d.refraction_index then
        some ⟨Ray.mk hit_point reflected_dir, d.attenuation⟩
      else
        some ⟨Ray.mk hit_point (refracted_dir + d.fuzz * rnd_refr), d.attenuation⟩
  | none => some ⟨Ray.mk hit_point reflected_dir, d.attenuation⟩

/-- Camera basis (`camera::Camera`), exact-real level. -/
structure Camera where
  lower_left_corner : Vec3
  horizontal : Vec3
  vertical : Vec3
  origin : Vec3
  u : Vec3
  v : Vec3
  lens_radius : ℝ

/-- Method `Camera::get_ray` (camera.rs:32-36), with the lens-disk sample `p`
(the value of `random_in_unit_disc()`) made explicit: `rd = lens_radius * p`,
`offset = u*rd.x + v*rd.y`, ray from the offset origin toward the viewport
point minus the same offset. -/
def Camera.get_ray (c : Camera) (s t : ℝ) (p : Vec3) : Ray :=
  let rd := c.lens_radius * p
  let offset := c.u * rd.x + c.v * rd.y
  Ray.mk (c.origin + offset)
    (c.lower_left_corner + c.horizontal * s + c.vertical * t - c.origin - offset)

/-- C9: for every camera, viewport coordinates `(s, t)` and lens-disk sample,
the ray's origin is the camera origin offset by `lens_radius` times the disk
sample along the basis vectors `u` and `v`, its direction is the viewport
point `lower_left_corner + horizontal*s + vertical*t` minus that offset
origin, and the point at parameter 1 of the ray is the viewport point itself —
independent of the disk sample (the focal point stays fixed). -/
theorem camera_get_ray_focal_point (c : Camera) (s t : ℝ) (p : Vec3) :
    (c.get_ray s t p).origin =
      c.origin + (c.u * (c.lens_radius * p).x + c.v * (c.lens_radius * p).y) ∧
    (c.get_ray s t p).direction =
      c.lower_left_corner + c.horizontal * s + c.vertical * t - c.origin -
        (c.u * (c.lens_radius * p).x + c.v * (c.lens_radius * p).y) ∧
    (c.get_ray s t p).point_at_parameter 1 =
      c.lower_left_corner + c.horizontal * s + c.vertical * t := by
  refine ⟨rfl, rfl, ?_⟩
  ext <;> simp [Camera.get_ray, Ray.point_at_parameter]

/-- C7: `refract` returns `None` exactly when
`1 - ni_over_nt²·(1 - dot(unit(v), n)²) ≤ 0`, and otherwise returns the
Snell-law refracted direction
`ni_over_nt*(unit(v) - n*dot(unit(v),n)) - n*sqrt(discriminant)`; in
particular `v = (0.9, -0.1, 0)`, `n = (0, 1, 0)`, `ni_over_nt = 1.5` yields
`None`. -/
theorem refract_none_iff (v n : Vec3) (ni_over_nt : ℝ) (_hv : v ≠ Vec3.new 0 0 0) :
    (refract v n ni_over_nt = none ↔
      1 - ni_over_nt * ni_over_nt *
        (1 - dot (unit_vector v) n * dot (unit_vector v) n) ≤ 0) ∧
    (0 < 1 - ni_over_nt * ni_over_nt *
        (1 - dot (unit_vector v) n * dot (unit_vector v) n) →
      refract v n ni_over_nt =
        some (ni_over_nt * (unit_vector v - n * dot (unit_vector v) n) -
          n * Real.sqrt (1 - ni_over_nt * ni_over_nt *
            (1 - dot (unit_vector v) n * dot (unit_vector v) n)))) ∧
    refract (Vec3.new 0.9 (-0.1) 0) (Vec3.new 0 1 0) 1.5 = none := by
  refine ⟨?_, ?_, ?_⟩
  · by_cases h : 0 < 1 - ni_over_nt * ni_over_nt *
        (1 - dot (unit_vector v) n * dot (unit_vector v) n)
    · simp only [refract, if_pos h]
      simp [not_le.mpr h]
    · simp only [refract, if_neg h]
      simp [not_lt.mp h]
  · intro h
    simp only [refract, if_pos h]
  · have hlen : (Vec3.new 0.9 (-0.1) 0 : Vec3).length = Real.sqrt 0.82 := by
      rw [Vec3.length]
      norm_num [Vec3.new]
    have hdt : dot (unit_vector (Vec3.new 0.9 (-0.1) 0)) (Vec3.new 0 1 0) =
        -0.1 / Real.sqrt 0.82 := by
      rw [unit_vector, dot, hlen]
      norm_num [Vec3.new]
    have hL : Real.sqrt 0.82 * Real.sqrt 0.82 = 0.82 :=
      Real.mul_self_sqrt (by norm_num)
    have hdt2 : dot (unit_vector (Vec3.new 0.9 (-0.1) 0)) (Vec3.new 0 1 0) *
        dot (unit_vector (Vec3.new 0.9 (-0.1) 0)) (Vec3.new 0 1 0) = 0.01 / 0.82 := by
      rw [hdt, div_mul_div_comm, hL]
      norm_num
    have hnot : ¬ (0 < 1 - 1.5 * 1.5 *
        (1 - dot (unit_vector (Vec3.new 0.9 (-0.1) 0)) (Vec3.new 0 1 0) *
          dot (unit_vector (Vec3.new 0.9 (-0.1) 0)) (Vec3.new 0 1 0))) := by
      rw [hdt2]
      norm_num
    simp only [refract, if_neg hnot]

/-- Witness for C7: the total-internal-reflection example named by the spec,
`v = (0.9, -0.1, 0)` (a nonzero vector), `n = (0, 1, 0)`, ratio `1.5`. -/
theorem refract_none_iff_witness :
    (Vec3.new 0.9 (-0.1) 0 ≠ Vec3.new 0 0 0) ∧
    refract (Vec3.new 0.9 (-0.1) 0) (Vec3.new 0 1 0) 1.5 = none := by
  have hv : Vec3.new 0.9 (-0.1) 0 ≠ Vec3.new 0 0 0 := by
    simp [Vec3.new]
    norm_num
  exact ⟨hv, (refract_none_iff (Vec3.new 0.9 (-0.1) 0) (Vec3.new 0 1 0) 1.5 hv).2.2⟩

/-- C5 (amended): the `cosine` fed to Schlick's approximation by
`Dielectric::scatter` equals `refraction_index * dot(incoming, normal) /
|incoming|` only in the exiting case (`dot > 0`); in the entering case
(`dot <= 0`, ray enters the medium) it equals `-dot(incoming, normal) /
|incoming|`, without the `refraction_index` factor. -/
theorem dielectric_cosine_cases (d : Dielectric) (ray_in : Ray) (hit_normal : Vec3) :
    (dot ray_in.direction hit_normal ≤ 0 →
      d.cosine ray_in hit_normal =
        -(dot ray_in.direction hit_normal) / ray_in.direction.length) ∧
    (0 < dot ray_in.direction hit_normal →
      d.cosine ray_in hit_normal =
        d.refraction_index * dot ray_in.direction hit_normal / ray_in.direction.length) := by
  constructor
  · intro h
    simp only [Dielectric.cosine, if_pos h]
  · intro h
    simp only [Dielectric.cosine, if_neg (not_le.mpr h)]

/-- Counterexample for C5 as stated: for the entering ray `(0,-1,0)` against
normal `(0,1,0)` with refraction index 1.5, the computed cosine is `1`, not
`refraction_index * dot / |incoming| = -1.5`. -/
theorem dielectric_cosine_counterexample :
    (Dielectric.new 1.5 0).cosine (Ray.mk (Vec3.new 0 0 0) (Vec3.new 0 (-1) 0))
        (Vec3.new 0 1 0) ≠
      (Dielectric.new 1.5 0).refraction_index *
        dot (Vec3.new 0 (-1) 0) (Vec3.new 0 1 0) / (Vec3.new 0 (-1) 0 : Vec3).length := by
  have hdot : dot (Vec3.new 0 (-1) 0) (Vec3.new 0 1 0) = -1 := by
    rw [dot]
    norm_num [Vec3.new]
  have hlen : (Vec3.new 0 (-1) 0 : Vec3).length = 1 := by
    rw [Vec3.length]
    norm_num [Vec3.new]
  have hcos : (Dielectric.new 1.5 0).cosine (Ray.mk (Vec3.new 0 0 0) (Vec3.new 0 (-1) 0))
      (Vec3.new 0 1 0) = 1 := by
    simp only [Dielectric.cosine, hdot, hlen]
    norm_num
  rw [hcos, hdot, hlen, Dielectric.new]
  norm_num

/-- C6: `Metal::scatter` returns `None` (absorption) exactly when the computed
outgoing direction `reflect(unit(incoming), normal) + fuzz * rnd` has
non-positive dot product with the hit normal, and Metal is the only material
that can fail to scatter: `Lambertian::scatter` always returns a scatter
attenuated by its fixed albedo, and `Dielectric::scatter` always returns a
scatter with the white attenuation `(1,1,1)`. -/
theorem materials_scatter_totality :
    (∀ (m : Metal) (rnd : Vec3) (ray_in : Ray) (p n : Vec3),
      m.scatter rnd ray_in p n = none ↔
        dot (reflect (unit_vector ray_in.direction) n + m.fuzz * rnd) n ≤ 0) ∧
    (∀ (l : Lambertian) (rnd : Vec3) (ray_in : Ray) (p n : Vec3),
      ∃ sc : Scatter, l.scatter rnd ray_in p n = some sc ∧ sc.color = l.albedo) ∧
    (∀ (ri fz : ℝ) (r1 r2 : Vec3) (ru : ℝ) (ray_in : Ray) (p n : Vec3),
      ∃ sc : Scatter, (Dielectric.new ri fz).scatter r1 r2 ru ray_in p n = some sc ∧
        sc.color = Vec3.new 1 1 1) := by
  refine ⟨?_, ?_, ?_⟩
  · intro m rnd ray_in p n
    by_cases h : 0 < dot (reflect (unit_vector ray_in.direction) n + m.fuzz * rnd) n
    · simp only [Metal.scatter, if_pos h]
      simp [not_le.mpr h]
    · simp only [Metal.scatter, if_neg h]
      simp [not_lt.mp h]
  · intro l rnd ray_in p n
    exact ⟨_, rfl, rfl⟩
  · intro ri fz r1 r2 ru ray_in p n
    rcases href : refract ray_in.direction ((Dielectric.new ri fz).outward_normal ray_in n)
        ((Dielectric.new ri fz).ni_over_nt ray_in n) with _ | rdir
    · simp only [Dielectric.scatter, href]
      exact ⟨_, rfl, rfl⟩
    · simp only [Dielectric.scatter, href]
      by_cases h : ru < schlick ((Dielectric.new ri fz).cosine ray_in n)
          (Dielectric.new ri fz).refraction_index
      · rw [if_pos h]
        exact ⟨_, rfl, rfl⟩
      · rw [if_neg h]
        exact ⟨_, rfl, rfl⟩

end Ideal

end PathTracer
